import Mathlib

/-!
# Verification of the CountryAnki flag-trainer core (`script.js`)

A shallow embedding of the spaced-repetition core of `script.js`:
the SM-2 review scheduler, the session queue builder, the in-session
retry queue and the distractor selector.  JavaScript numbers are
modelled as exact rationals (`ℚ`) where fractional arithmetic occurs
and as integers (`ℤ`) where the program only ever stores integers;
dates are modelled at day granularity (the program strips the time of
day with `setHours(0,0,0,0)` before every comparison), so a date is a
day number `: ℤ`.  `Math.random`-driven choices are modelled by an
injected random source `rand : ℕ → ℕ`.  The mutable `cards` object is
modelled as an explicit map `String → Option ReviewCard` threaded
through the operations that touch it.
-/

/-- JavaScript `Math.round`: round half toward positive infinity. -/
def jsRound (x : ℚ) : ℤ := ⌊x + 1/2⌋

/-- An entry of `data/countries.json`: code, name, continent, flag colors,
flag layout. -/
structure Item where
  code : String
  name : String
  continent : String
  colors : List String
  layout : String
deriving DecidableEq, Repr

/-- Per-item SM-2 state (`cards[code]` in `script.js`). -/
structure ReviewCard where
  easeFactor : ℚ
  interval : ℤ
  repetitions : ℤ
  nextReviewDate : Option ℤ
  lapses : ℤ
deriving DecidableEq, Repr

/-- The card `getCard` creates on first access. -/
def defaultCard : ReviewCard :=
  { easeFactor := 5/2, interval := 0, repetitions := 0,
    nextReviewDate := none, lapses := 0 }

/-- The mutable `cards` map, `code -> card`. -/
def CardMap : Type := String → Option ReviewCard

/-- `getCard(code)`: create the default card when absent, return the card and
the (possibly extended) map. -/
def getCard (code : String) (m : CardMap) : ReviewCard × CardMap :=
  match m code with
  | some c => (c, m)
  | none => (defaultCard, fun k => if k = code then some defaultCard else m k)

/-- `addDays(new Date(), days)` at day granularity: midnight of
`today + days`. -/
def addDays (today : ℤ) (days : ℤ) : ℤ := today + days

/-- `processCorrect(code, quality)` acting on one card.  The source updates
`card.easeFactor` first and then uses the updated value in the interval
formula for `repetitions >= 2`. -/
def processCorrect (today : ℤ) (q : ℚ) (card : ReviewCard) : ReviewCard :=
  let newEF : ℚ := max (13/10) (card.easeFactor + (1/10 - (5 - q) * (8/100 + (5 - q) * (2/100))))
  let ef : ℚ := (jsRound (newEF * 100) : ℚ) / 100
  let newInterval : ℤ :=
    if card.repetitions = 0 then 1
    else if card.repetitions = 1 then 6
    else jsRound ((card.interval : ℚ) * ef)
  { card with
      easeFactor := ef,
      interval := newInterval,
      repetitions := card.repetitions + 1,
      nextReviewDate := some (addDays today newInterval) }

/-- `processIncorrect(code)` acting on one card. -/
def processIncorrect (today : ℤ) (card : ReviewCard) : ReviewCard :=
  { card with
      repetitions := 0,
      interval := 1,
      lapses := card.lapses + 1,
      easeFactor := max (13/10) (card.easeFactor - 2/10),
      nextReviewDate := some (addDays today 1) }

/-- The dueness test of `isDue(code)` on a card that is already at hand. -/
def isDueCard (today : ℤ) (card : ReviewCard) : Bool :=
  if card.repetitions = 0 then false
  else
    match card.nextReviewDate with
    | none => true
    | some d => d ≤ today

/-- `isDue(code)`: calls `getCard` (which may insert a default card) and
tests dueness. -/
def isDue (today : ℤ) (code : String) (m : CardMap) : Bool × CardMap :=
  let p := getCard code m
  (isDueCard today p.1, p.2)

/-- `countries.filter((c) => isDue(c.code))`, with the side effects of
`isDue` threaded left to right as `Array.prototype.filter` evaluates them. -/
def filterIsDue (today : ℤ) : List Item → CardMap → List Item × CardMap
  | [], m => ([], m)
  | c :: t, m =>
    let p := isDue today c.code m
    let r := filterIsDue today t p.2
    (if p.1 then c :: r.1 else r.1, r.2)

/-- `getDueCount()`. -/
def getDueCount (today : ℤ) (countries : List Item) (m : CardMap) : ℕ × CardMap :=
  let p := filterIsDue today countries m
  (p.1.length, p.2)

/-- The card a lookup observes: the stored card, or the default that
`getCard` would create. -/
def lookupCard (m : CardMap) (code : String) : ReviewCard :=
  (m code).getD defaultCard

theorem getCard_fst (code : String) (m : CardMap) :
    (getCard code m).1 = lookupCard m code := by
  unfold getCard lookupCard
  cases m code <;> simp

theorem getCard_snd_lookup (code : String) (m : CardMap) (k : String) :
    lookupCard (getCard code m).2 k = lookupCard m k := by
  unfold getCard lookupCard
  cases h : m code with
  | some c => simp
  | none =>
    by_cases hk : k = code <;> simp [hk, h]

theorem isDue_fst (today : ℤ) (code : String) (m : CardMap) :
    (isDue today code m).1 = isDueCard today (lookupCard m code) := by
  show isDueCard today (getCard code m).1 = _
  rw [getCard_fst]

theorem isDue_snd_lookup (today : ℤ) (code : String) (m : CardMap) (k : String) :
    lookupCard (isDue today code m).2 k = lookupCard m k := by
  unfold isDue
  exact getCard_snd_lookup code m k

theorem getCard_snd_self (code : String) (m : CardMap) :
    (getCard code m).2 code = some (lookupCard m code) := by
  unfold getCard lookupCard
  cases h : m code <;> simp [h]

theorem getCard_snd_other (code : String) (m : CardMap) (k : String) (hk : k ≠ code) :
    (getCard code m).2 k = m k := by
  unfold getCard
  cases h : m code <;> simp [hk]

theorem getCard_snd_pres (code : String) (m : CardMap) (k : String) :
    (m k).isSome → ((getCard code m).2 k).isSome := by
  intro h
  unfold getCard
  cases hc : m code with
  | some c => exact h
  | none =>
    by_cases hk : k = code <;> simp [hk, h]

theorem filterIsDue_snd_other (today : ℤ) (l : List Item) (m : CardMap) (k : String)
    (hk : ∀ c ∈ l, c.code ≠ k) : (filterIsDue today l m).2 k = m k := by
  induction l generalizing m with
  | nil => rfl
  | cons c t ih =>
    show (filterIsDue today t (isDue today c.code m).2).2 k = m k
    rw [ih _ fun d hd => hk d (List.mem_cons_of_mem c hd)]
    show (getCard c.code m).2 k = m k
    exact getCard_snd_other c.code m k fun h => hk c (List.mem_cons_self c t) h.symm

theorem filterIsDue_snd_pres (today : ℤ) (l : List Item) (m : CardMap) (k : String) :
    (m k).isSome → ((filterIsDue today l m).2 k).isSome := by
  induction l generalizing m with
  | nil => exact id
  | cons c t ih =>
    intro h
    show (((filterIsDue today t (isDue today c.code m).2)).2 k).isSome
    exact ih _ (getCard_snd_pres c.code m k h)

theorem filterIsDue_snd_mem (today : ℤ) (l : List Item) (m : CardMap) (c : Item)
    (hc : c ∈ l) : (((filterIsDue today l m).2) c.code).isSome := by
  induction l generalizing m with
  | nil => cases hc
  | cons d t ih =>
    rcases List.mem_cons.mp hc with h | h
    · subst h
      show (((filterIsDue today t (isDue today c.code m).2)).2 c.code).isSome
      refine filterIsDue_snd_pres today t _ c.code ?_
      show (((getCard c.code m).2) c.code).isSome
      rw [getCard_snd_self]
      rfl
    · show (((filterIsDue today t (isDue today d.code m).2)).2 c.code).isSome
      exact ih _ h

/-- C10: querying dueness is not read-only.  `isDue` on a code with no
existing card inserts the default card `{easeFactor=2.5, interval=0,
repetitions=0, nextReviewDate=None, lapses=0}` into the card map, leaves
every other entry unchanged, and after `getDueCount` the map has an entry
for every catalog code while entries for codes outside the catalog are
unchanged. -/
theorem isDue_getDueCount_insert_default (today : ℤ) (code : String) (m : CardMap)
    (countries : List Item) :
    ((isDue today code m).2 code = some (lookupCard m code))
    ∧ (∀ k, k ≠ code → (isDue today code m).2 k = m k)
    ∧ (m code = none → (isDue today code m).2 code = some defaultCard)
    ∧ (∀ c ∈ countries, (((getDueCount today countries m).2) c.code).isSome)
    ∧ (∀ k, (∀ c ∈ countries, c.code ≠ k) → (getDueCount today countries m).2 k = m k) := by
  refine ⟨getCard_snd_self code m, fun k hk => getCard_snd_other code m k hk, ?_, ?_, ?_⟩
  · intro h
    have := getCard_snd_self code m
    rwa [lookupCard, h] at this
  · intro c hc
    exact filterIsDue_snd_mem today countries m c hc
  · intro k hk
    exact filterIsDue_snd_other today countries m k hk

/-- C10 witness: a concrete run of the frame property.  On the empty map,
querying "fr" inserts exactly the default card and `getDueCount` over a
one-item catalog inserts that item's code. -/
theorem isDue_getDueCount_insert_default_witness :
    (isDue 0 "fr" (fun _ => none)).2 "fr" = some defaultCard ∧
    (isDue 0 "fr" (fun _ => none)).2 "de" = none := by
  have h := isDue_getDueCount_insert_default 0 "fr" (fun _ => none) []
  refine ⟨h.2.2.1 rfl, ?_⟩
  have := h.2.1 "de" (by decide)
  rw [this]

/-- C6: `recordIncorrect` resets repetitions to 0, sets interval to 1,
increments lapses by exactly 1, drops the ease factor by 0.2 floored at 1.3,
and schedules the next review at midnight of the following day. -/
theorem processIncorrect_spec (today : ℤ) (c : ReviewCard) :
    (processIncorrect today c).repetitions = 0
    ∧ (processIncorrect today c).interval = 1
    ∧ (processIncorrect today c).lapses = c.lapses + 1
    ∧ (processIncorrect today c).easeFactor = max (13/10) (c.easeFactor - 2/10)
    ∧ (processIncorrect today c).nextReviewDate = some (addDays today 1) := by
  exact ⟨rfl, rfl, rfl, rfl, rfl⟩

/-- C2 counterexample: after three `recordCorrect(quality = 4)` calls on a
fresh card the ease factor after the second and third calls is 2.5, the
stored interval is `round(6 × EF₃) = 15`, while the claimed formula
`round(6 × EF₂ × EF₃)` gives `round(37.5) = 38 ≠ 15`. -/
theorem triple_correct_interval_cex :
    (processCorrect 0 4 (processCorrect 0 4 (processCorrect 0 4 defaultCard))).interval = 15
    ∧ (processCorrect 0 4 (processCorrect 0 4 defaultCard)).easeFactor = 5/2
    ∧ (processCorrect 0 4 (processCorrect 0 4 (processCorrect 0 4 defaultCard))).easeFactor = 5/2
    ∧ jsRound (6 * (5/2) * (5/2)) = 38
    ∧ (15 : ℤ) ≠ 38 := by
  refine ⟨?_, ?_, ?_, ?_, by decide⟩ <;>
    norm_num [processCorrect, defaultCard, jsRound]

/-- C2 (amended): a fresh card answered correctly three times with quality 4
reaches `repetitions = 3` and `interval = round(interval₂ × EF₃) =
round(6 × EF₃) = 15` (the code multiplies the previous interval, 6, by the
new ease factor once — not by two ease factors), and is not due the same
calendar day. -/
theorem triple_correct_spec (today : ℤ) :
    (processCorrect today 4 (processCorrect today 4 (processCorrect today 4 defaultCard))).repetitions = 3
    ∧ (processCorrect today 4 (processCorrect today 4 (processCorrect today 4 defaultCard))).interval =
        jsRound (6 * (processCorrect today 4 (processCorrect today 4 (processCorrect today 4 defaultCard))).easeFactor)
    ∧ (processCorrect today 4 (processCorrect today 4 (processCorrect today 4 defaultCard))).interval = 15
    ∧ isDueCard today (processCorrect today 4 (processCorrect today 4 (processCorrect today 4 defaultCard))) = false := by
  refine ⟨?_, ?_, ?_, ?_⟩ <;>
    norm_num [processCorrect, defaultCard, isDueCard, jsRound, addDays]

/-- One scheduler operation on a single item's card: `getCard` (which leaves
an existing card unchanged), `processCorrect` at some day with some quality,
or `processIncorrect` at some day. -/
inductive SchedOp where
  | getCardOp : SchedOp
  | correct (today : ℤ) (q : ℚ) : SchedOp
  | incorrect (today : ℤ) : SchedOp

/-- Apply one scheduler operation to a card. -/
def applySchedOp (c : ReviewCard) : SchedOp → ReviewCard
  | .getCardOp => c
  | .correct today q => processCorrect today q c
  | .incorrect today => processIncorrect today c

/-- Run a sequence of scheduler operations from the lazily created default
card. -/
def runSched (ops : List SchedOp) : ReviewCard :=
  ops.foldl applySchedOp defaultCard

/-- The qualities `checkAnswer` can pass to `processCorrect` (3 = hard,
4 = good, 5 = easy). -/
def validOp : SchedOp → Prop
  | .correct _ q => q = 3 ∨ q = 4 ∨ q = 5
  | _ => True

/-- The claimed data invariant of a review card. -/
def cardInv (c : ReviewCard) : Prop :=
  13/10 ≤ c.easeFactor ∧ 0 ≤ c.interval ∧ 0 ≤ c.repetitions

theorem cardInv_default : cardInv defaultCard := by
  refine ⟨by norm_num [defaultCard], by norm_num [defaultCard], by norm_num [defaultCard]⟩

theorem jsRound_ge (n : ℤ) (x : ℚ) (h : (n : ℚ) ≤ x) : n ≤ jsRound x := by
  rw [jsRound, Int.le_floor]
  linarith

theorem processCorrect_easeFactor_ge (today : ℤ) (q : ℚ) (c : ReviewCard) :
    13/10 ≤ (processCorrect today q c).easeFactor := by
  show (13 : ℚ)/10 ≤
    (jsRound ((max (13/10) (c.easeFactor + (1/10 - (5 - q) * (8/100 + (5 - q) * (2/100))))) * 100) : ℚ) / 100
  have h1 : (130 : ℤ) ≤
      jsRound ((max (13/10) (c.easeFactor + (1/10 - (5 - q) * (8/100 + (5 - q) * (2/100))))) * 100) := by
    apply jsRound_ge
    have := le_max_left ((13:ℚ)/10) (c.easeFactor + (1/10 - (5 - q) * (8/100 + (5 - q) * (2/100))))
    push_cast
    nlinarith
  have h2 : (130 : ℚ) ≤
      (jsRound ((max (13/10) (c.easeFactor + (1/10 - (5 - q) * (8/100 + (5 - q) * (2/100))))) * 100) : ℚ) := by
    exact_mod_cast h1
  linarith
theorem cardInv_applySchedOp (c : ReviewCard) (op : SchedOp) (h : cardInv c) :
    cardInv (applySchedOp c op) := by
  obtain ⟨hEF, hInt, hRep⟩ := h
  cases op with
  | getCardOp => exact ⟨hEF, hInt, hRep⟩
  | correct today q =>
    refine ⟨processCorrect_easeFactor_ge today q c, ?_, ?_⟩
    · show (0 : ℤ) ≤ if c.repetitions = 0 then 1 else if c.repetitions = 1 then 6
        else jsRound ((c.interval : ℚ) * ((jsRound _ : ℚ) / 100))
      have hef := processCorrect_easeFactor_ge today q c
      by_cases h0 : c.repetitions = 0
      · simp [h0]
      · by_cases h1 : c.repetitions = 1
        · simp [h0, h1]
        · simp only [h0, h1, if_false]
          rw [jsRound, Int.le_floor]
          push_cast
          have hefq : (0 : ℚ) ≤ (jsRound ((max (13/10) (c.easeFactor + (1/10 - (5 - q) * (8/100 + (5 - q) * (2/100))))) * 100) : ℚ) / 100 := by
            have : (13:ℚ)/10 ≤ (jsRound ((max (13/10) (c.easeFactor + (1/10 - (5 - q) * (8/100 + (5 - q) * (2/100))))) * 100) : ℚ) / 100 :=
              processCorrect_easeFactor_ge today q c
            linarith
          have hi : (0 : ℚ) ≤ (c.interval : ℚ) := by exact_mod_cast hInt
          nlinarith
    · show (0 : ℤ) ≤ c.repetitions + 1
      omega
  | incorrect today =>
    exact ⟨le_max_left _ _, by norm_num [applySchedOp, processIncorrect],
      by norm_num [applySchedOp, processIncorrect]⟩

theorem cardInv_foldl (c : ReviewCard) (ops : List SchedOp) (h : cardInv c) :
    cardInv (ops.foldl applySchedOp c) := by
  induction ops generalizing c with
  | nil => exact h
  | cons op t ih => exact ih _ (cardInv_applySchedOp c op h)

theorem applySchedOp_lapses_mono (c : ReviewCard) (op : SchedOp) :
    c.lapses ≤ (applySchedOp c op).lapses := by
  cases op with
  | getCardOp => exact le_refl _
  | correct today q => exact le_refl _
  | incorrect today => exact le_of_lt (by norm_num [applySchedOp, processIncorrect])

/-- C5: from the default card, every sequence of scheduler operations
(`getCard`, `recordCorrect` with quality in {3,4,5}, `recordIncorrect`)
keeps `easeFactor ≥ 1.3`, `interval ≥ 0` and `repetitions ≥ 0`, and no
single operation ever decreases `lapses`. -/
theorem runSched_invariant (ops : List SchedOp) (h : ∀ op ∈ ops, validOp op) :
    cardInv (runSched ops)
    ∧ (∀ op, (applySchedOp (runSched ops) op).lapses ≥ (runSched ops).lapses) := by
  refine ⟨cardInv_foldl defaultCard ops cardInv_default, ?_⟩
  intro op
  exact applySchedOp_lapses_mono (runSched ops) op

/-- C5 witness: the invariant evaluated on a concrete operation sequence:
correct (quality 4), incorrect, correct (quality 3), a read. -/
theorem runSched_invariant_witness :
    cardInv (runSched [.correct 0 4, .incorrect 1, .correct 2 3, .getCardOp])
    ∧ (∀ op, (applySchedOp (runSched [.correct 0 4, .incorrect 1, .correct 2 3, .getCardOp]) op).lapses ≥
        (runSched [.correct 0 4, .incorrect 1, .correct 2 3, .getCardOp]).lapses) := by
  refine runSched_invariant _ ?_
  intro op hop
  fin_cases hop <;> norm_num [validOp]

/-- `[arr[i], arr[j]] = [arr[j], arr[i]]`: exchange two positions of a list.
If either index is out of range the list is unchanged (in `shuffleArray` the
indices are always in range). -/
def swapL {α : Type} (l : List α) (i j : ℕ) : List α :=
  match l[i]?, l[j]? with
  | some a, some b => (l.set i b).set j a
  | some _, none => l
  | none, _ => l

theorem set_getElem_self {α : Type} (l : List α) (i : ℕ) (a : α)
    (h : l[i]? = some a) : l.set i a = l := by
  induction l generalizing i with
  | nil => simp at h
  | cons x t ih =>
    cases i with
    | zero =>
      simp at h
      simp [List.set, h]
    | succ k =>
      simp at h
      simp [List.set, ih k h]

theorem cons_set_perm {α : Type} (t : List α) (k : ℕ) (x b : α)
    (h : t[k]? = some b) : (b :: t.set k x).Perm (x :: t) := by
  induction t generalizing k with
  | nil => simp at h
  | cons y s ih =>
    cases k with
    | zero =>
      simp at h
      subst h
      exact List.Perm.swap x y s
    | succ k' =>
      simp at h
      show (b :: y :: s.set k' x).Perm (x :: y :: s)
      have h1 : (b :: y :: s.set k' x).Perm (y :: b :: s.set k' x) :=
        List.Perm.swap y b (s.set k' x)
      have h2 : (y :: b :: s.set k' x).Perm (y :: x :: s) := (ih k' h).cons y
      have h3 : (y :: x :: s).Perm (x :: y :: s) := List.Perm.swap x y s
      exact (h1.trans h2).trans h3

theorem set_set_perm {α : Type} (l : List α) (i j : ℕ) (a b : α)
    (hi : l[i]? = some a) (hj : l[j]? = some b) :
    ((l.set i b).set j a).Perm l := by
  induction l generalizing i j with
  | nil => simp at hi
  | cons x t ih =>
    cases i with
    | zero =>
      simp at hi
      subst hi
      cases j with
      | zero =>
        simp at hj
        subst hj
        simp [List.set]
      | succ k =>
        simp at hj
        show (b :: t.set k x).Perm (x :: t)
        exact cons_set_perm t k x b hj
    | succ k =>
      simp at hi
      cases j with
      | zero =>
        simp at hj
        subst hj
        show (a :: t.set k x).Perm (x :: t)
        exact cons_set_perm t k x a hi
      | succ k' =>
        simp at hj
        show (x :: (t.set k b).set k' a).Perm (x :: t)
        exact (ih k k' hi hj).cons x

theorem swapL_perm {α : Type} (l : List α) (i j : ℕ) : (swapL l i j).Perm l := by
  unfold swapL
  cases hi : l[i]? with
  | none => exact List.Perm.refl l
  | some a =>
    cases hj : l[j]? with
    | none => exact List.Perm.refl l
    | some b => exact set_set_perm l i j a b hi hj

/-- The loop body of `shuffleArray`, counting `i` down from
`arr.length - 1` to `1`: at counter value `i`, pick
`j = Math.floor(Math.random() * (i + 1))` — modelled by `rand i % (i + 1)`
for the injected random source — and swap positions `i` and `j`. -/
def shuffleGo {α : Type} (rand : ℕ → ℕ) : ℕ → List α → List α
  | 0, l => l
  | i+1, l => shuffleGo rand i (swapL l (i+1) (rand (i+1) % (i+2)))

/-- The in-place effect of `shuffleArray(arr)` (Fisher–Yates).  The
JavaScript function mutates `arr` and returns `undefined`; this definition
is the array's content after the call. -/
def shuffleArray {α : Type} (rand : ℕ → ℕ) (l : List α) : List α :=
  shuffleGo rand (l.length - 1) l

theorem shuffleGo_perm {α : Type} (rand : ℕ → ℕ) (i : ℕ) (l : List α) :
    (shuffleGo rand i l).Perm l := by
  induction i generalizing l with
  | zero => exact List.Perm.refl l
  | succ k ih =>
    exact (ih _).trans (swapL_perm l (k+1) (rand (k+1) % (k+2)))

theorem shuffleArray_perm {α : Type} (rand : ℕ → ℕ) (l : List α) :
    (shuffleArray rand l).Perm l :=
  shuffleGo_perm rand (l.length - 1) l

/-- `SESSION_RETRY_GAPS`: the fixed in-session retry spacing, in question
ticks. -/
def SESSION_RETRY_GAPS : List ℤ := [2, 5, 9]

/-- One element of `gameState.retryQueue`. -/
structure RetryEntry where
  code : String
  country : Item
  step : ℕ
  nextAt : ℤ
deriving DecidableEq, Repr

/-- `scheduleSessionRetry(country)` at question count `qc`: reset the first
entry with this code to step 0 and `nextAt = qc + 1` when one exists,
otherwise append a fresh entry with `nextAt = qc + SESSION_RETRY_GAPS[0]`. -/
def scheduleSessionRetry (qc : ℤ) (c : Item) : List RetryEntry → List RetryEntry
  | [] => [{ code := c.code, country := c, step := 0,
             nextAt := qc + SESSION_RETRY_GAPS.getD 0 0 }]
  | e :: t =>
    if e.code = c.code then { e with step := 0, nextAt := qc + 1 } :: t
    else e :: scheduleSessionRetry qc c t

/-- A concrete catalog item used in the closed counterexamples. -/
def itemA : Item :=
  { code := "aa", name := "Alba", continent := "X", colors := ["red", "white"],
    layout := "stripes" }

/-- A second concrete catalog item. -/
def itemB : Item :=
  { code := "bb", name := "Bora", continent := "X", colors := ["red", "white"],
    layout := "stripes" }

/-- C3 counterexample: rescheduling an item that already has a retry entry
(question count 5) sets its `nextAt` to `5 + 1 = 6`, not to
`5 + SESSION_RETRY_GAPS[0] = 7` as claimed. -/
theorem scheduleSessionRetry_reset_cex :
    scheduleSessionRetry 5 itemA [{ code := "aa", country := itemA, step := 2, nextAt := 9 }] =
      [{ code := "aa", country := itemA, step := 0, nextAt := 6 }]
    ∧ (6 : ℤ) ≠ 5 + SESSION_RETRY_GAPS.getD 0 0 := by
  constructor
  · simp [scheduleSessionRetry, itemA]
  · decide

theorem scheduleSessionRetry_countP (qc : ℤ) (c : Item) (q : List RetryEntry)
    (h1 : q.countP (fun e => e.code = c.code) ≤ 1) :
    (scheduleSessionRetry qc c q).countP (fun e => e.code = c.code) = 1 := by
  induction q with
  | nil => simp [scheduleSessionRetry]
  | cons e t ih =>
    by_cases hc : e.code = c.code
    · rw [List.countP_cons] at h1
      have ht : t.countP (fun e => (e.code = c.code : Bool)) = 0 := by
        simp only [hc, decide_eq_true_eq, eq_self_iff_true, if_true] at h1
        omega
      simp [scheduleSessionRetry, hc, List.countP_cons, ht]
    · rw [List.countP_cons] at h1
      have ht : t.countP (fun e => (e.code = c.code : Bool)) ≤ 1 :=
        le_trans (Nat.le_add_right _ _) h1
      have := ih ht
      simp [scheduleSessionRetry, hc, List.countP_cons, this]

theorem scheduleSessionRetry_length (qc : ℤ) (c : Item) (q : List RetryEntry)
    (h : ∃ e ∈ q, e.code = c.code) :
    (scheduleSessionRetry qc c q).length = q.length := by
  induction q with
  | nil => simp at h
  | cons e t ih =>
    by_cases hc : e.code = c.code
    · simp [scheduleSessionRetry, hc]
    · obtain ⟨f, hf, hfc⟩ := h
      rcases List.mem_cons.mp hf with rfl | hft
      · exact absurd hfc hc
      · simp [scheduleSessionRetry, hc, ih ⟨f, hft, hfc⟩]

theorem scheduleSessionRetry_reset_fields (qc : ℤ) (c : Item) (q : List RetryEntry)
    (h1 : q.countP (fun e => e.code = c.code) ≤ 1)
    (h : ∃ e ∈ q, e.code = c.code) :
    ∀ f ∈ scheduleSessionRetry qc c q, f.code = c.code → f.step = 0 ∧ f.nextAt = qc + 1 := by
  induction q with
  | nil => simp at h
  | cons e t ih =>
    by_cases hc : e.code = c.code
    · rw [List.countP_cons] at h1
      have ht : t.countP (fun e => (e.code = c.code : Bool)) = 0 := by
        simp only [hc, decide_eq_true_eq, eq_self_iff_true, if_true] at h1
        omega
      intro f hf hfc
      rcases List.mem_cons.mp (by simpa [scheduleSessionRetry, hc] using hf) with rfl | hft
      · exact ⟨rfl, rfl⟩
      · exfalso
        have : 0 < t.countP (fun e => (e.code = c.code : Bool)) := by
          rw [List.countP_pos_iff]
          exact ⟨f, hft, by simp [hfc]⟩
        omega
    · have ht : t.countP (fun e => (e.code = c.code : Bool)) ≤ 1 := by
        rw [List.countP_cons] at h1
        exact le_trans (Nat.le_add_right _ _) h1
      obtain ⟨g, hg, hgc⟩ := h
      rcases List.mem_cons.mp hg with rfl | hgt
      · exact absurd hgc hc
      · intro f hf hfc
        rcases List.mem_cons.mp (by simpa [scheduleSessionRetry, hc] using hf) with rfl | hft
        · exact absurd hfc hc
        · exact ih ht ⟨g, hgt, hgc⟩ f hft hfc

/-- C3 (amended): when the retry queue holds at most one entry per code,
`schedule` leaves exactly one entry for the item's code; when an entry
already exists it is reset in place — `step = 0`, `nextAt = currentTick + 1`
(the next question, not `currentTick + gaps[0]`) — and the queue length is
unchanged; two consecutive `schedule` calls on the same item leave exactly
one entry for its code, with `step = 0`. -/
theorem scheduleSessionRetry_spec (qc qc' : ℤ) (c : Item) (q : List RetryEntry)
    (h1 : q.countP (fun e => e.code = c.code) ≤ 1) :
    (scheduleSessionRetry qc c q).countP (fun e => e.code = c.code) = 1
    ∧ ((∃ e ∈ q, e.code = c.code) →
        (scheduleSessionRetry qc c q).length = q.length
        ∧ ∀ f ∈ scheduleSessionRetry qc c q, f.code = c.code →
            f.step = 0 ∧ f.nextAt = qc + 1)
    ∧ (scheduleSessionRetry qc' c (scheduleSessionRetry qc c q)).countP
        (fun e => e.code = c.code) = 1
    ∧ (∀ f ∈ scheduleSessionRetry qc' c (scheduleSessionRetry qc c q),
        f.code = c.code → f.step = 0 ∧ f.nextAt = qc' + 1) := by
  have hA := scheduleSessionRetry_countP qc c q h1
  refine ⟨hA, ?_, ?_, ?_⟩
  · intro h
    exact ⟨scheduleSessionRetry_length qc c q h,
      scheduleSessionRetry_reset_fields qc c q h1 h⟩
  · exact scheduleSessionRetry_countP qc' c _ (le_of_eq hA)
  · refine scheduleSessionRetry_reset_fields qc' c _ (le_of_eq hA) ?_
    have : 0 < (scheduleSessionRetry qc c q).countP (fun e => e.code = c.code) := by
      omega
    rw [List.countP_pos] at this
    obtain ⟨f, hf, hfc⟩ := this
    exact ⟨f, hf, by simpa using hfc⟩

/-- C3 witness: the amended reset semantics on a concrete one-entry queue. -/
theorem scheduleSessionRetry_spec_witness :
    (scheduleSessionRetry 9 itemA (scheduleSessionRetry 5 itemA
        [{ code := "aa", country := itemA, step := 2, nextAt := 9 }])).countP
      (fun e => e.code = itemA.code) = 1 :=
  (scheduleSessionRetry_spec 5 9 itemA
    [{ code := "aa", country := itemA, step := 2, nextAt := 9 }] (by decide)).2.2.1

/-- The comparator `(a, b) => a.nextAt - b.nextAt` of
`retryQueue.sort(...)`, as an ordering relation. -/
def leNext (a b : RetryEntry) : Prop := a.nextAt ≤ b.nextAt

instance : DecidableRel leNext := fun a b => Int.decLe a.nextAt b.nextAt

instance : IsTotal RetryEntry leNext := ⟨fun a b => le_total a.nextAt b.nextAt⟩

instance : IsTrans RetryEntry leNext := ⟨fun _ _ _ hab hbc => le_trans hab hbc⟩

/-- `popDueRetryCountry()` at question count `qc`.  `Array.prototype.sort`
with a numeric comparator is a stable sort; as a function of the list it is
insertion sort by `nextAt`.  The sort mutates the queue, so the no-hit
branches return the sorted queue. -/
def popDueRetryCountry (qc : ℤ) (q : List RetryEntry) : Option Item × List RetryEntry :=
  if q.isEmpty then (none, q)
  else
    let sorted := List.insertionSort leNext q
    match sorted.findIdx? (fun r => r.nextAt ≤ qc) with
    | none => (none, sorted)
    | some idx =>
      match sorted[idx]? with
      | none => (none, sorted)
      | some e =>
        if SESSION_RETRY_GAPS.length - 1 ≤ e.step then
          (some e.country, sorted.eraseIdx idx)
        else
          (some e.country,
           sorted.set idx { e with step := e.step + 1,
                                   nextAt := qc + SESSION_RETRY_GAPS.getD (e.step + 1) 0 })

/-- The head of the stable sort by `nextAt` is the first entry of the
original list whose `nextAt` is minimal. -/
theorem insertionSort_head_first_min (q : List RetryEntry) (hne : q ≠ []) :
    ∃ pre e post s, q = pre ++ e :: post
      ∧ List.insertionSort leNext q = e :: s
      ∧ (∀ f ∈ q, e.nextAt ≤ f.nextAt)
      ∧ (∀ f ∈ pre, e.nextAt < f.nextAt) := by
  induction q with
  | nil => exact absurd rfl hne
  | cons x t ih =>
    cases t with
    | nil =>
      exact ⟨[], x, [], [], rfl, rfl, by simp, by simp⟩
    | cons y s0 =>
      obtain ⟨pre, e, post, s, hdec, hsort, hmin, hpre⟩ := ih (List.cons_ne_nil y s0)
      have hstep : List.insertionSort leNext (x :: y :: s0) =
          List.orderedInsert leNext x (e :: s) := by
        show List.orderedInsert leNext x (List.insertionSort leNext (y :: s0)) = _
        rw [hsort]
      by_cases hxe : leNext x e
      · refine ⟨[], x, y :: s0, e :: s, rfl, ?_, ?_, by simp⟩
        · rw [hstep]
          simp [List.orderedInsert, hxe]
        · intro f hf
          rcases List.mem_cons.mp hf with rfl | hft
          · exact le_refl _
          · exact le_trans hxe (hmin f hft)
      · refine ⟨x :: pre, e, post, List.orderedInsert leNext x s, ?_, ?_, ?_, ?_⟩
        · rw [hdec]
          rfl
        · rw [hstep]
          simp [List.orderedInsert, hxe]
        · intro f hf
          rcases List.mem_cons.mp hf with rfl | hft
          · exact le_of_lt (lt_of_not_le hxe)
          · exact hmin f hft
        · intro f hf
          rcases List.mem_cons.mp hf with rfl | hfp
          · exact lt_of_not_le hxe
          · exact hpre f hfp

theorem popDueRetryCountry_cons (qc : ℤ) (x : RetryEntry) (t : List RetryEntry) :
    popDueRetryCountry qc (x :: t) =
      match (List.insertionSort leNext (x :: t)).findIdx? (fun r => r.nextAt ≤ qc) with
      | none => (none, List.insertionSort leNext (x :: t))
      | some idx =>
        match (List.insertionSort leNext (x :: t))[idx]? with
        | none => (none, List.insertionSort leNext (x :: t))
        | some e =>
          if SESSION_RETRY_GAPS.length - 1 ≤ e.step then
            (some e.country, (List.insertionSort leNext (x :: t)).eraseIdx idx)
          else
            (some e.country,
             (List.insertionSort leNext (x :: t)).set idx
               { e with step := e.step + 1,
                        nextAt := qc + SESSION_RETRY_GAPS.getD (e.step + 1) 0 }) := rfl

/-- C7: `popDue` returns `none` exactly when no entry is due
(`nextAt <= currentTick`); otherwise it returns the item of the entry with
the smallest `nextAt` (earliest position in the queue among ties) — in
particular a due entry, never one with `nextAt > currentTick` — removing
that entry when its `step` is the last index of `SESSION_RETRY_GAPS`, and
otherwise advancing its `step` by one and setting its `nextAt` to
`currentTick + SESSION_RETRY_GAPS[step]`. -/
theorem popDueRetryCountry_spec (qc : ℤ) (q : List RetryEntry) :
    ((popDueRetryCountry qc q).1 = none ↔ ∀ e ∈ q, qc < e.nextAt)
    ∧ (∀ it, (popDueRetryCountry qc q).1 = some it →
        ∃ pre e post, q = pre ++ e :: post ∧ it = e.country ∧ e.nextAt ≤ qc
          ∧ (∀ f ∈ q, e.nextAt ≤ f.nextAt)
          ∧ (∀ f ∈ pre, e.nextAt < f.nextAt)
          ∧ (SESSION_RETRY_GAPS.length - 1 ≤ e.step →
              ((popDueRetryCountry qc q).2).Perm (pre ++ post))
          ∧ (e.step < SESSION_RETRY_GAPS.length - 1 →
              ((popDueRetryCountry qc q).2).Perm
                ({ e with step := e.step + 1,
                          nextAt := qc + SESSION_RETRY_GAPS.getD (e.step + 1) 0 }
                  :: (pre ++ post)))) := by
  cases q with
  | nil =>
    constructor
    · constructor
      · intro _ e he
        cases he
      · intro _
        rfl
    · intro it hit
      cases hit
  | cons x t =>
    obtain ⟨pre, e, post, s, hdec, hsort, hmin, hpre⟩ :=
      insertionSort_head_first_min (x :: t) (List.cons_ne_nil x t)
    have hperm : (e :: s).Perm (x :: t) := by
      rw [← hsort]
      exact List.perm_insertionSort leNext (x :: t)
    have hmem : e ∈ x :: t := by
      rw [hdec]
      exact List.mem_append_right pre (List.mem_cons_self e post)
    have hsperm : s.Perm (pre ++ post) := by
      have h1 : (e :: s).Perm (e :: (pre ++ post)) := by
        refine hperm.trans ?_
        rw [hdec]
        exact List.perm_middle
      exact h1.cons_inv
    by_cases he : e.nextAt ≤ qc
    · have hfind0 : List.findIdx? (fun r => decide (r.nextAt ≤ qc)) (e :: s) = some 0 := by
        rw [List.findIdx?_cons]
        simp [he]
      by_cases hs : SESSION_RETRY_GAPS.length - 1 ≤ e.step
      · have hpd : popDueRetryCountry qc (x :: t) = (some e.country, s) := by
          rw [popDueRetryCountry_cons, hsort, hfind0]
          simp [hs]
        refine ⟨⟨fun hnone => ?_, fun hall => absurd he (not_le.mpr (hall e hmem))⟩, ?_⟩
        · rw [hpd] at hnone
          cases hnone
        · intro it hit
          rw [hpd] at hit
          have hit2 : some e.country = some it := hit
          injection hit2 with hit3
          refine ⟨pre, e, post, hdec, hit3.symm, he, hmin, hpre, ?_, ?_⟩
          · intro _
            rw [hpd]
            exact hsperm
          · intro hcon
            exact absurd hs (by omega)
      · have hpd : popDueRetryCountry qc (x :: t) =
            (some e.country,
             { e with step := e.step + 1,
                      nextAt := qc + SESSION_RETRY_GAPS.getD (e.step + 1) 0 } :: s) := by
          rw [popDueRetryCountry_cons, hsort, hfind0]
          simp [hs]
        refine ⟨⟨fun hnone => ?_, fun hall => absurd he (not_le.mpr (hall e hmem))⟩, ?_⟩
        · rw [hpd] at hnone
          cases hnone
        · intro it hit
          rw [hpd] at hit
          have hit2 : some e.country = some it := hit
          injection hit2 with hit3
          refine ⟨pre, e, post, hdec, hit3.symm, he, hmin, hpre, ?_, ?_⟩
          · intro hcon
            exact absurd hcon hs
          · intro _
            rw [hpd]
            exact hsperm.cons _
    · have hall : ∀ f ∈ x :: t, qc < f.nextAt := by
        intro f hf
        exact lt_of_lt_of_le (not_le.mp he) (hmin f hf)
      have hfind : (List.insertionSort leNext (x :: t)).findIdx?
          (fun r => r.nextAt ≤ qc) = none := by
        rw [List.findIdx?_eq_none_iff]
        intro f hf
        have hfmem : f ∈ x :: t := (List.perm_insertionSort leNext (x :: t)).mem_iff.mp hf
        simp [not_le.mpr (hall f hfmem)]
      have hpd : popDueRetryCountry qc (x :: t) =
          (none, List.insertionSort leNext (x :: t)) := by
        rw [popDueRetryCountry_cons, hfind]
      refine ⟨⟨fun _ => hall, fun _ => ?_⟩, ?_⟩
      · rw [hpd]
      · intro it hit
        rw [hpd] at hit
        cases hit

/-- `NEW_CARDS_PER_SESSION`. -/
def NEW_CARDS_PER_SESSION : ℕ := 15

/-- `CONTINENT_NEW_CARDS_PER_SESSION`. -/
def CONTINENT_NEW_CARDS_PER_SESSION : ℕ := 8

/-- `pool.filter((c) => getCard(c.code).repetitions === 0)`, with the
side effects of `getCard` threaded left to right. -/
def filterNewCards : List Item → CardMap → List Item × CardMap
  | [], m => ([], m)
  | c :: t, m =>
    let p := getCard c.code m
    let r := filterNewCards t p.2
    (if p.1.repetitions = 0 then c :: r.1 else r.1, r.2)

/-- The de-duplicating push loop of `buildSrsQueue`: append each item whose
code is not yet in `used` to the queue and record its code. -/
def pushDedup (acc : List Item) (used : List String) : List Item → List Item × List String
  | [] => (acc, used)
  | c :: t =>
    if c.code ∈ used then pushDedup acc used t
    else pushDedup (acc ++ [c]) (c.code :: used) t

/-- `buildSrsQueue(pool, newPerSession)`: partition into due and new
(zero-repetition) items, shuffle each, then push due items and up to
`newPerSession` of the new items, de-duplicating by code. -/
def buildSrsQueue (r1 r2 : ℕ → ℕ) (today : ℤ) (pool : List Item) (newPerSession : ℕ)
    (m : CardMap) : List Item × CardMap :=
  let p1 := filterIsDue today pool m
  let p2 := filterNewCards pool p1.2
  let dueS := shuffleArray r1 p1.1
  let newS := shuffleArray r2 p2.1
  let d1 := pushDedup [] [] dueS
  let d2 := pushDedup d1.1 d1.2 (newS.take newPerSession)
  (d2.1, p2.2)

/-- What `buildQueue` evaluates to: a queue array, or JavaScript's
`undefined`. -/
inductive QueueResult where
  | undef : QueueResult
  | queue : List Item → QueueResult
deriving DecidableEq, Repr

/-- `buildQueue()`.  In the endless/timed branch the source executes
`return shuffleArray([...countries])`: `shuffleArray` shuffles its argument
in place and has no `return` statement, so the shuffled copy is discarded
and the call evaluates to `undefined` — hence `QueueResult.undef` for those
modes.  Unknown modes fall through to the final full-catalog SRS branch. -/
def buildQueue (mode : String) (selectedContinent : String) (r1 r2 : ℕ → ℕ) (today : ℤ)
    (countries : List Item) (m : CardMap) : QueueResult × CardMap :=
  if mode = "endless" ∨ mode = "timed" then
    (QueueResult.undef, m)
  else if mode = "continent" then
    let filtered := countries.filter (fun c => c.continent = selectedContinent)
    let p := buildSrsQueue r1 r2 today filtered CONTINENT_NEW_CARDS_PER_SESSION m
    (QueueResult.queue p.1, p.2)
  else
    let p := buildSrsQueue r1 r2 today countries NEW_CARDS_PER_SESSION m
    (QueueResult.queue p.1, p.2)

/-- C1: in the endless and timed modes `buildQueue` evaluates to
`undefined` — not to a shuffled copy of the catalog — because
`shuffleArray` mutates in place and returns nothing; the caller then
crashes reading `queue.length`. -/
theorem buildQueue_endless_timed_undef (sc : String) (r1 r2 : ℕ → ℕ) (today : ℤ)
    (countries : List Item) (m : CardMap) :
    buildQueue "endless" sc r1 r2 today countries m = (QueueResult.undef, m)
    ∧ buildQueue "timed" sc r1 r2 today countries m = (QueueResult.undef, m)
    ∧ ∀ l : List Item, (QueueResult.undef : QueueResult) ≠ QueueResult.queue l := by
  refine ⟨?_, ?_, fun l h => by cases h⟩
  · simp [buildQueue]
  · simp [buildQueue]

/-- C4 (amended): an unknown mode value does not fail fast — `buildQueue`
falls through to the full-catalog SRS branch and behaves exactly like mode
"normal". -/
theorem buildQueue_unknown_mode_defaults (mode sc : String) (r1 r2 : ℕ → ℕ) (today : ℤ)
    (countries : List Item) (m : CardMap)
    (h1 : mode ≠ "endless") (h2 : mode ≠ "timed") (h3 : mode ≠ "continent") :
    buildQueue mode sc r1 r2 today countries m =
      buildQueue "normal" sc r1 r2 today countries m := by
  unfold buildQueue
  rw [if_neg (by simp [h1, h2]), if_neg h3, if_neg (by simp), if_neg (by simp)]

/-- C4 counterexample: at mode "bogus" the session queue builder raises no
invalid-configuration error; it returns the very SRS queue that mode
"normal" returns (here: the two fresh catalog items as new cards). -/
theorem buildQueue_unknown_mode_cex :
    buildQueue "bogus" "" (fun _ => 0) (fun _ => 0) 0 [itemA, itemB] (fun _ => none)
      = buildQueue "normal" "" (fun _ => 0) (fun _ => 0) 0 [itemA, itemB] (fun _ => none)
    ∧ (buildQueue "bogus" "" (fun _ => 0) (fun _ => 0) 0 [itemA, itemB] (fun _ => none)).1
      = QueueResult.queue [itemB, itemA] := by
  constructor
  · rfl
  · rfl

/-- C4 witness: the fall-through equation applied at the concrete unknown
mode "hardcore". -/
theorem buildQueue_unknown_mode_defaults_witness :
    buildQueue "hardcore" "" (fun _ => 1) (fun _ => 1) 3 [itemA] (fun _ => none)
      = buildQueue "normal" "" (fun _ => 1) (fun _ => 1) 3 [itemA] (fun _ => none) :=
  buildQueue_unknown_mode_defaults "hardcore" "" (fun _ => 1) (fun _ => 1) 3 [itemA]
    (fun _ => none) (by decide) (by decide) (by decide)

theorem filterIsDue_fst_pure (today : ℤ) (l : List Item) (m : CardMap) :
    (filterIsDue today l m).1 =
      l.filter (fun c => isDueCard today (lookupCard m c.code)) := by
  induction l generalizing m with
  | nil => rfl
  | cons c t ih =>
    show (if (isDue today c.code m).1 then
            c :: (filterIsDue today t (isDue today c.code m).2).1
          else (filterIsDue today t (isDue today c.code m).2).1) = _
    rw [isDue_fst, ih]
    have hcg : t.filter (fun d => isDueCard today (lookupCard (isDue today c.code m).2 d.code)) =
        t.filter (fun d => isDueCard today (lookupCard m d.code)) := by
      apply List.filter_congr
      intro d _
      rw [isDue_snd_lookup]
    rw [hcg, List.filter_cons]

theorem filterIsDue_snd_lookup (today : ℤ) (l : List Item) (m : CardMap) (k : String) :
    lookupCard (filterIsDue today l m).2 k = lookupCard m k := by
  induction l generalizing m with
  | nil => rfl
  | cons c t ih =>
    show lookupCard (filterIsDue today t (isDue today c.code m).2).2 k = _
    rw [ih, isDue_snd_lookup]

theorem filterNewCards_fst_pure (l : List Item) (m : CardMap) :
    (filterNewCards l m).1 =
      l.filter (fun c => (lookupCard m c.code).repetitions = 0) := by
  induction l generalizing m with
  | nil => rfl
  | cons c t ih =>
    show (if (getCard c.code m).1.repetitions = 0 then
            c :: (filterNewCards t (getCard c.code m).2).1
          else (filterNewCards t (getCard c.code m).2).1) = _
    rw [getCard_fst, ih]
    have hcg : t.filter (fun d => ((lookupCard (getCard c.code m).2 d.code).repetitions = 0 : Bool)) =
        t.filter (fun d => ((lookupCard m d.code).repetitions = 0 : Bool)) := by
      apply List.filter_congr
      intro d _
      rw [getCard_snd_lookup]
    rw [hcg, List.filter_cons]
    by_cases hd : (lookupCard m c.code).repetitions = 0 <;> simp [hd]

theorem isDueCard_reps (today : ℤ) (card : ReviewCard)
    (h : isDueCard today card = true) : card.repetitions ≠ 0 := by
  intro h0
  rw [isDueCard, if_pos h0] at h
  cases h

theorem pushDedup_eq (l : List Item) (acc : List Item) (used : List String)
    (hdisj : ∀ c ∈ l, c.code ∉ used) (hnd : (l.map Item.code).Nodup) :
    (pushDedup acc used l).1 = acc ++ l
    ∧ ∀ k, k ∈ (pushDedup acc used l).2 ↔ k ∈ used ∨ k ∈ l.map Item.code := by
  induction l generalizing acc used with
  | nil => simp [pushDedup]
  | cons c t ih =>
    have hc : c.code ∉ used := hdisj c (List.mem_cons_self c t)
    have hnd2 : (List.map Item.code (c :: t)).Nodup := hnd
    rw [List.map_cons, List.nodup_cons] at hnd2
    have hdisj2 : ∀ d ∈ t, d.code ∉ c.code :: used := by
      intro d hd hmem
      rcases List.mem_cons.mp hmem with h | h
      · exact hnd2.1 (h ▸ List.mem_map_of_mem Item.code hd)
      · exact hdisj d (List.mem_cons_of_mem c hd) h
    have hstep : pushDedup acc used (c :: t) = pushDedup (acc ++ [c]) (c.code :: used) t := by
      simp only [pushDedup, if_neg hc]
    obtain ⟨ih1, ih2⟩ := ih (acc ++ [c]) (c.code :: used) hdisj2 hnd2.2
    constructor
    · rw [hstep, ih1, List.append_assoc]
      rfl
    · intro k
      rw [hstep, ih2 k, List.map_cons]
      simp only [List.mem_cons]
      tauto

/-- C8: with unique catalog codes, the SRS-blend queue is exactly the due
items of the pool in some shuffled order, followed by at most
`newPerSession` new (zero-repetition) items of the pool, and no item code
appears twice in the queue. -/
theorem buildSrsQueue_spec (r1 r2 : ℕ → ℕ) (today : ℤ) (pool : List Item) (nps : ℕ)
    (m : CardMap) (hnd : (pool.map Item.code).Nodup) :
    ∃ d n, (buildSrsQueue r1 r2 today pool nps m).1 = d ++ n
      ∧ d.Perm (pool.filter (fun c => isDueCard today (lookupCard m c.code)))
      ∧ n.length ≤ nps
      ∧ (∀ x ∈ n, x ∈ pool ∧ (lookupCard m x.code).repetitions = 0)
      ∧ (((buildSrsQueue r1 r2 today pool nps m).1).map Item.code).Nodup := by
  have hdue1 : (filterIsDue today pool m).1 =
      pool.filter (fun c => isDueCard today (lookupCard m c.code)) :=
    filterIsDue_fst_pure today pool m
  have hnew1 : (filterNewCards pool (filterIsDue today pool m).2).1 =
      pool.filter (fun c => ((lookupCard m c.code).repetitions = 0 : Bool)) := by
    rw [filterNewCards_fst_pure]
    apply List.filter_congr
    intro d _
    rw [filterIsDue_snd_lookup]
  have hshape : (buildSrsQueue r1 r2 today pool nps m).1 =
      (pushDedup
        (pushDedup [] [] (shuffleArray r1 (pool.filter (fun c => isDueCard today (lookupCard m c.code))))).1
        (pushDedup [] [] (shuffleArray r1 (pool.filter (fun c => isDueCard today (lookupCard m c.code))))).2
        ((shuffleArray r2 (pool.filter (fun c => ((lookupCard m c.code).repetitions = 0 : Bool)))).take nps)).1 := by
    show (pushDedup
        (pushDedup [] [] (shuffleArray r1 (filterIsDue today pool m).1)).1
        (pushDedup [] [] (shuffleArray r1 (filterIsDue today pool m).1)).2
        ((shuffleArray r2 (filterNewCards pool (filterIsDue today pool m).2).1).take nps)).1 = _
    rw [hdue1, hnew1]
  have hpermD := shuffleArray_perm r1 (pool.filter (fun c => isDueCard today (lookupCard m c.code)))
  have hpermN := shuffleArray_perm r2 (pool.filter (fun c => ((lookupCard m c.code).repetitions = 0 : Bool)))
  have hndDue : ((shuffleArray r1 (pool.filter (fun c => isDueCard today (lookupCard m c.code)))).map Item.code).Nodup := by
    refine ((hpermD.map Item.code).nodup_iff).mpr ?_
    exact List.Nodup.sublist ((List.filter_sublist pool).map Item.code) hnd
  have hndNew : ((shuffleArray r2 (pool.filter (fun c => ((lookupCard m c.code).repetitions = 0 : Bool)))).map Item.code).Nodup := by
    refine ((hpermN.map Item.code).nodup_iff).mpr ?_
    exact List.Nodup.sublist ((List.filter_sublist pool).map Item.code) hnd
  have hndL2 : (((shuffleArray r2 (pool.filter (fun c => ((lookupCard m c.code).repetitions = 0 : Bool)))).take nps).map Item.code).Nodup :=
    List.Nodup.sublist ((List.take_sublist nps _).map Item.code) hndNew
  obtain ⟨h11, h12⟩ := pushDedup_eq
    (shuffleArray r1 (pool.filter (fun c => isDueCard today (lookupCard m c.code)))) [] []
    (by simp) hndDue
  have hdisj2 : ∀ c ∈ (shuffleArray r2 (pool.filter (fun c => ((lookupCard m c.code).repetitions = 0 : Bool)))).take nps,
      c.code ∉ (pushDedup [] []
        (shuffleArray r1 (pool.filter (fun c => isDueCard today (lookupCard m c.code))))).2 := by
    intro c hc hmem
    rw [h12 c.code] at hmem
    rcases hmem with h | h
    · cases h
    · rw [List.mem_map] at h
      obtain ⟨y, hy, hyc⟩ := h
      have hyD := hpermD.mem_iff.mp hy
      have hcN := hpermN.mem_iff.mp (List.mem_of_mem_take hc)
      have hyPool : y ∈ pool := List.mem_of_mem_filter hyD
      have hyDue := List.of_mem_filter hyD
      have hcPool : c ∈ pool := List.mem_of_mem_filter hcN
      have hcNew : (lookupCard m c.code).repetitions = 0 := by
        have := List.of_mem_filter hcN
        simpa using this
      have heq : y = c := List.inj_on_of_nodup_map hnd hyPool hcPool (by rw [hyc])
      rw [← heq] at hcNew
      exact isDueCard_reps today _ hyDue hcNew
  obtain ⟨h21, h22⟩ := pushDedup_eq
    ((shuffleArray r2 (pool.filter (fun c => ((lookupCard m c.code).repetitions = 0 : Bool)))).take nps)
    (pushDedup [] [] (shuffleArray r1 (pool.filter (fun c => isDueCard today (lookupCard m c.code))))).1
    (pushDedup [] [] (shuffleArray r1 (pool.filter (fun c => isDueCard today (lookupCard m c.code))))).2
    hdisj2 hndL2
  refine ⟨shuffleArray r1 (pool.filter (fun c => isDueCard today (lookupCard m c.code))),
    (shuffleArray r2 (pool.filter (fun c => ((lookupCard m c.code).repetitions = 0 : Bool)))).take nps,
    ?_, hpermD, List.length_take_le nps _, ?_, ?_⟩
  · rw [hshape, h21, h11]
    rfl
  · intro x hx
    have hxN := hpermN.mem_iff.mp (List.mem_of_mem_take hx)
    refine ⟨List.mem_of_mem_filter hxN, ?_⟩
    have := List.of_mem_filter hxN
    simpa using this
  · rw [hshape, h21, h11, List.nil_append, List.map_append, List.nodup_append]
    refine ⟨hndDue, hndL2, ?_⟩
    intro a haD haN
    rw [List.mem_map] at haD haN
    obtain ⟨y, hy, hyc⟩ := haD
    obtain ⟨c, hc, hcc⟩ := haN
    refine hdisj2 c hc ?_
    rw [h12]
    right
    rw [List.mem_map]
    exact ⟨y, hy, by rw [hyc, hcc]⟩

/-- C8 witness: the shape property on a concrete two-item fresh catalog. -/
theorem buildSrsQueue_spec_witness :
    ∃ d n, (buildSrsQueue (fun _ => 0) (fun _ => 0) 0 [itemA, itemB] 15 (fun _ => none)).1 = d ++ n
      ∧ d.Perm ([itemA, itemB].filter
          (fun c => isDueCard 0 (lookupCard (fun _ => none) c.code)))
      ∧ n.length ≤ 15
      ∧ (∀ x ∈ n, x ∈ [itemA, itemB] ∧ (lookupCard (fun _ => none) x.code).repetitions = 0)
      ∧ (((buildSrsQueue (fun _ => 0) (fun _ => 0) 0 [itemA, itemB] 15 (fun _ => none)).1).map Item.code).Nodup :=
  buildSrsQueue_spec (fun _ => 0) (fun _ => 0) 0 [itemA, itemB] 15 (fun _ => none) (by decide)

/-- A `{country, score}` record of `getDistractors`. -/
structure Scored where
  country : Item
  score : ℤ
deriving DecidableEq, Repr

/-- `getSimilarityScore(a, b)`: +2 same continent, +2 per shared
(case-insensitive, distinct) color, +6 for an identical color set,
+3 for the same layout. -/
def getSimilarityScore (a b : Item) : ℤ :=
  let aColors := (a.colors.map String.toLower).dedup
  let bColors := (b.colors.map String.toLower).dedup
  let shared : ℕ := (aColors.filter (fun c => c ∈ bColors)).length
  (if a.continent = b.continent then 2 else 0)
    + (shared : ℤ) * 2
    + (if aColors.length = bColors.length ∧ shared = aColors.length then 6 else 0)
    + (if a.layout = b.layout then 3 else 0)

/-- The comparator `(a, b) => b.score - a.score` of `getDistractors`
(sort by score, descending). -/
def scoreDesc (a b : Scored) : Prop := b.score ≤ a.score

instance : DecidableRel scoreDesc := fun a b => Int.decLe b.score a.score

instance : IsTotal Scored scoreDesc := ⟨fun a b => le_total b.score a.score⟩

instance : IsTrans Scored scoreDesc := ⟨fun _ _ _ hab hbc => le_trans hbc hab⟩

/-- `others.map((c) => ({country: c, score: getSimilarityScore(...)}))` over
the non-target items. -/
def scoredOf (correct : Item) (countries : List Item) : List Scored :=
  (countries.filter (fun c => c.code ≠ correct.code)).map
    (fun c => { country := c, score := getSimilarityScore correct c })

/-- `scored.sort((a, b) => b.score - a.score)`: the stable descending sort. -/
def sortedScoredOf (correct : Item) (countries : List Item) : List Scored :=
  List.insertionSort scoreDesc (scoredOf correct countries)

/-- `topSimilar = scored.filter((s) => s.score >= 5)`. -/
def topSimilarOf (correct : Item) (countries : List Item) : List Scored :=
  (sortedScoredOf correct countries).filter (fun s => 5 ≤ s.score)

/-- `pool = topSimilar.length >= count ? topSimilar : scored.slice(0, 25)`. -/
def distractorPool (correct : Item) (countries : List Item) (count : ℕ) : List Scored :=
  if count ≤ (topSimilarOf correct countries).length then topSimilarOf correct countries
  else (sortedScoredOf correct countries).take 25

/-- `getDistractors(correctCountry, count)`: shuffle the candidate pool and
keep the first `count` countries. -/
def getDistractors (rand : ℕ → ℕ) (countries : List Item) (correct : Item)
    (count : ℕ) : List Item :=
  ((shuffleArray rand (distractorPool correct countries count)).take count).map
    (fun s => s.country)

/-- C9: `getDistractors(target, 3)` never includes the target, returns
exactly `min 3 (number of non-target items)` items, and every returned item
comes from the selection pool — the score-≥-5 candidates when at least 3
exist, otherwise the top 25 of the descending sort by similarity score. -/
theorem getDistractors_spec (rand : ℕ → ℕ) (countries : List Item) (target : Item) :
    (∀ x ∈ getDistractors rand countries target 3, x.code ≠ target.code)
    ∧ target ∉ getDistractors rand countries target 3
    ∧ (getDistractors rand countries target 3).length
        = min 3 (countries.filter (fun c => c.code ≠ target.code)).length
    ∧ (∀ x ∈ getDistractors rand countries target 3,
        ∃ sc ∈ distractorPool target countries 3, sc.country = x) := by
  have hpoolsub : ∀ sc ∈ distractorPool target countries 3, sc ∈ scoredOf target countries := by
    intro sc hsc
    unfold distractorPool at hsc
    by_cases htop : 3 ≤ (topSimilarOf target countries).length
    · rw [if_pos htop] at hsc
      exact (List.perm_insertionSort scoreDesc _).mem_iff.mp (List.mem_of_mem_filter hsc)
    · rw [if_neg htop] at hsc
      exact (List.perm_insertionSort scoreDesc _).mem_iff.mp (List.mem_of_mem_take hsc)
  have hres : ∀ x ∈ getDistractors rand countries target 3,
      ∃ sc ∈ distractorPool target countries 3, sc.country = x := by
    intro x hx
    unfold getDistractors at hx
    rw [List.mem_map] at hx
    obtain ⟨sc, hsc, hx⟩ := hx
    exact ⟨sc, (shuffleArray_perm rand _).mem_iff.mp (List.mem_of_mem_take hsc), hx⟩
  have hcode : ∀ x ∈ getDistractors rand countries target 3, x.code ≠ target.code := by
    intro x hx
    obtain ⟨sc, hsc, hx⟩ := hres x hx
    have hmem := hpoolsub sc hsc
    unfold scoredOf at hmem
    rw [List.mem_map] at hmem
    obtain ⟨c, hc, hmk⟩ := hmem
    have hcx : c = x := by
      rw [← hx, ← hmk]
    subst hcx
    have := List.of_mem_filter hc
    simpa using this
  refine ⟨hcode, fun ht => hcode target ht rfl, ?_, hres⟩
  have hlen : (getDistractors rand countries target 3).length
      = min 3 (distractorPool target countries 3).length := by
    unfold getDistractors
    rw [List.length_map, List.length_take, (shuffleArray_perm rand _).length_eq]
  rw [hlen]
  have hslen : (sortedScoredOf target countries).length
      = (countries.filter (fun c => c.code ≠ target.code)).length := by
    rw [sortedScoredOf, (List.perm_insertionSort scoreDesc _).length_eq, scoredOf,
      List.length_map]
  unfold distractorPool
  by_cases htop : 3 ≤ (topSimilarOf target countries).length
  · rw [if_pos htop]
    have h1 : (topSimilarOf target countries).length
        ≤ (countries.filter (fun c => c.code ≠ target.code)).length := by
      rw [← hslen]
      exact List.length_filter_le _ _
    omega
  · rw [if_neg htop, List.length_take]
    omega
